import Mathlib

/-!
# Verification of the databricks-mcp-server utility layer

A shallow embedding of the repository's core utility layer
(`src/databricks_mcp/utils.py`, `src/databricks_mcp/config.py`, and the
alert-creation tool of `src/databricks_mcp/tools/sql.py`), together with
proofs and refutations of the specification's claims about it.

Python runtime values reaching `serialize` are modelled by the inductive
type `Val`: `none`, booleans, integers, strings, dicts with string keys,
lists, tuples, dataclass instances, enum-like objects (anything with a
`value` attribute), generic attribute-bearing objects (`__dict__`), and a
final constructor for values with none of those shapes, carrying their
`str()` representation.
-/

namespace DatabricksMcp

/-- Python values as seen by `serialize` in `src/databricks_mcp/utils.py`.
`dataclass` carries the class name and the field list in declaration
order; `enumV` models any object with a `value` attribute (the code's
enum check is `hasattr(obj, "value")`); `obj` models a generic object via
its `__dict__` items; `other` models any remaining value by its `str()`
representation. -/
inductive Val where
  | none_ : Val
  | bool : Bool → Val
  | int : Int → Val
  | str : String → Val
  | dict : List (String × Val) → Val
  | list : List Val → Val
  | tuple : List Val → Val
  | dataclass : String → List (String × Val) → Val
  | enumV : Val → Val
  | obj : List (String × Val) → Val
  | other : String → Val

/-- Boolean test for the Python `is None` check. -/
def isNone : Val → Bool
  | .none_ => true
  | _ => false

mutual

/-- Node-count measure on `Val`, used as the termination measure of
`serialize` (structural recursion does not apply there because the
dataclass branch recurses through `asdict`). -/
def vsize : Val → Nat
  | .none_ => 1
  | .bool _ => 1
  | .int _ => 1
  | .str _ => 1
  | .dict es => 1 + psize es
  | .list xs => 1 + lsize xs
  | .tuple xs => 1 + lsize xs
  | .dataclass _ fs => 1 + psize fs
  | .enumV v => 1 + vsize v
  | .obj attrs => 1 + psize attrs
  | .other _ => 1

/-- Size of a list of values. -/
def lsize : List Val → Nat
  | [] => 0
  | x :: xs => 1 + vsize x + lsize xs

/-- Size of a list of key/value pairs. -/
def psize : List (String × Val) → Nat
  | [] => 0
  | p :: ps => 1 + vsize p.2 + psize ps

end

mutual

/-- Model of `dataclasses.asdict`: recursively converts dataclass
instances into dicts (keeping `None`-valued fields), recursing into
dicts, lists and tuples; every other value (enums, plain objects, …) is
deep-copied unchanged. -/
def asdict : Val → Val
  | .dict es => .dict (asdictP es)
  | .list xs => .list (asdictL xs)
  | .tuple xs => .tuple (asdictL xs)
  | .dataclass _ fs => .dict (asdictP fs)
  | v => v

/-- `asdict` mapped over a list of values. -/
def asdictL : List Val → List Val
  | [] => []
  | x :: xs => asdict x :: asdictL xs

/-- `asdict` mapped over the values of a key/value list. -/
def asdictP : List (String × Val) → List (String × Val)
  | [] => []
  | p :: ps => (p.1, asdict p.2) :: asdictP ps

end

mutual

theorem vsize_asdict : ∀ v : Val, vsize (asdict v) ≤ vsize v
  | .none_ => Nat.le_refl _
  | .bool _ => Nat.le_refl _
  | .int _ => Nat.le_refl _
  | .str _ => Nat.le_refl _
  | .dict es => by
      simp only [asdict, vsize]
      exact Nat.add_le_add_left (psize_asdictP es) 1
  | .list xs => by
      simp only [asdict, vsize]
      exact Nat.add_le_add_left (lsize_asdictL xs) 1
  | .tuple xs => by
      simp only [asdict, vsize]
      exact Nat.add_le_add_left (lsize_asdictL xs) 1
  | .dataclass _ fs => by
      simp only [asdict, vsize]
      exact Nat.add_le_add_left (psize_asdictP fs) 1
  | .enumV _ => Nat.le_refl _
  | .obj _ => Nat.le_refl _
  | .other _ => Nat.le_refl _

theorem lsize_asdictL : ∀ xs : List Val, lsize (asdictL xs) ≤ lsize xs
  | [] => Nat.le_refl _
  | x :: xs => by
      simp only [asdictL, lsize]
      have h1 := vsize_asdict x
      have h2 := lsize_asdictL xs
      omega

theorem psize_asdictP : ∀ ps : List (String × Val), psize (asdictP ps) ≤ psize ps
  | [] => Nat.le_refl _
  | p :: ps => by
      simp only [asdictP, psize]
      have h1 := vsize_asdict p.2
      have h2 := psize_asdictP ps
      omega

end

theorem psize_filter_le (q : String × Val → Bool) :
    ∀ ps : List (String × Val), psize (ps.filter q) ≤ psize ps := by
  intro ps
  induction ps with
  | nil => simp [psize]
  | cons p ps ih =>
      by_cases h : q p = true
      · simp only [List.filter_cons, h, if_pos, psize]
        omega
      · simp only [List.filter_cons, h]
        simp only [Bool.false_eq_true, if_false, psize]
        omega

mutual

/-- Model of `serialize` from `src/databricks_mcp/utils.py`:
`None` and primitives are returned unchanged; dicts recurse into values
keeping keys verbatim; lists and tuples become lists of serialized
elements; a dataclass instance is converted by `asdict` and its items
serialized, dropping items whose (converted) value is `None`; a value
with a `value` attribute returns that attribute raw; a generic object
serializes its `__dict__`, dropping underscore-prefixed keys and `None`
values; anything else falls back to `str(obj)`. -/
def serialize : Val → Val
  | .none_ => .none_
  | .bool b => .bool b
  | .int n => .int n
  | .str s => .str s
  | .dict es => .dict (serializeP es)
  | .list xs => .list (serializeL xs)
  | .tuple xs => .list (serializeL xs)
  | .dataclass _ fs =>
      .dict (serializeP ((asdictP fs).filter (fun p => !(isNone p.2))))
  | .enumV v => v
  | .obj attrs =>
      .dict (serializeP (attrs.filter
        (fun p => !(p.1.startsWith "_") && !(isNone p.2))))
  | .other s => .str s
termination_by v => vsize v
decreasing_by
  all_goals simp only [vsize, lsize, psize]
  all_goals first
    | omega
    | exact Nat.lt_of_le_of_lt
        (Nat.le_trans (psize_filter_le _ _) (psize_asdictP _))
        (Nat.lt_add_of_pos_left Nat.one_pos)
    | exact Nat.lt_of_le_of_lt (psize_filter_le _ _)
        (Nat.lt_add_of_pos_left Nat.one_pos)

/-- `serialize` mapped over a list of values. -/
def serializeL : List Val → List Val
  | [] => []
  | x :: xs => serialize x :: serializeL xs
termination_by xs => lsize xs
decreasing_by
  all_goals simp only [vsize, lsize, psize]
  all_goals omega

/-- `serialize` mapped over the values of a key/value list. -/
def serializeP : List (String × Val) → List (String × Val)
  | [] => []
  | p :: ps => (p.1, serialize p.2) :: serializeP ps
termination_by ps => psize ps
decreasing_by
  all_goals simp only [vsize, lsize, psize]
  all_goals omega

end

/-- Model of `paginate`'s loop in `src/databricks_mcp/utils.py`: walks the
iterator with index `i` (from `enumerate`), breaking as soon as
`i >= max_items`, otherwise appending the serialized item. The lazy
iterator is modelled by the list of items it would yield. -/
def paginateGo (max_items : Nat) : Nat → List Val → List Val
  | _, [] => []
  | i, x :: xs =>
      if max_items ≤ i then [] else serialize x :: paginateGo max_items (i + 1) xs

/-- Model of `paginate` from `src/databricks_mcp/utils.py`; the default
cap is 100 as in the source. -/
def paginate (iterator : List Val) (max_items : Nat := 100) : List Val :=
  paginateGo max_items 0 iterator

/-- A caught Python exception as `format_error` sees it: its runtime type
name, its `str()` message, and the optional `error_code` attribute of
Databricks API errors. -/
structure Failure where
  typeName : String
  message : String
  error_code : Option String

/-- Model of `format_error` from `src/databricks_mcp/utils.py`. -/
def format_error (e : Failure) : String :=
  match e.error_code with
  | some code => e.typeName ++ ": [" ++ code ++ "] " ++ e.message
  | none => e.typeName ++ ": " ++ e.message

/-- Shallow model of Python `str()` on the values that can remain after
`serialize` as non-JSON-native leaves; only its totality matters to the
claims, not its exact text. -/
def strRepr : Val → String
  | .none_ => "None"
  | .bool b => cond b "True" "False"
  | .int n => toString n
  | .str s => s
  | .other s => s
  | _ => "<object>"

/-- JSON string literal (escaping abstracted away). -/
def jsonQuote (s : String) : String := "\"" ++ s ++ "\""

mutual

/-- Model of `json.dumps` with a `default` hook: `None`, booleans,
integers, strings, lists, tuples and string-keyed dicts are encoded
natively; any other value is passed to `dflt`, whose string result is
encoded as a JSON string; `dflt x = none` models `dumps` without a
usable default raising `TypeError` at leaf `x`. Indentation is
abstracted away (the source passes `indent=2`), which the claims do not
depend on. -/
def dumpsWith (dflt : Val → Option String) : Val → Option String
  | .none_ => some "null"
  | .bool b => some (cond b "true" "false")
  | .int n => some (toString n)
  | .str s => some (jsonQuote s)
  | .dict es => (dumpsPWith dflt es).map (fun body => "\x7b" ++ body ++ "\x7d")
  | .list xs => (dumpsLWith dflt xs).map (fun body => "[" ++ body ++ "]")
  | .tuple xs => (dumpsLWith dflt xs).map (fun body => "[" ++ body ++ "]")
  | v => (dflt v).map jsonQuote
termination_by v => vsize v
decreasing_by
  all_goals simp only [vsize, lsize, psize]
  all_goals omega

/-- Encode the elements of a JSON array, comma-separated. -/
def dumpsLWith (dflt : Val → Option String) : List Val → Option String
  | [] => some ""
  | x :: xs => do
      let a ← dumpsWith dflt x
      let b ← dumpsLWith dflt xs
      some (if xs.isEmpty then a else a ++ ", " ++ b)
termination_by xs => lsize xs
decreasing_by
  all_goals simp only [vsize, lsize, psize]
  all_goals omega

/-- Encode the members of a JSON object, comma-separated. -/
def dumpsPWith (dflt : Val → Option String) : List (String × Val) → Option String
  | [] => some ""
  | p :: ps => do
      let a ← dumpsWith dflt p.2
      let b ← dumpsPWith dflt ps
      some (if ps.isEmpty then jsonQuote p.1 ++ ": " ++ a
            else jsonQuote p.1 ++ ": " ++ a ++ ", " ++ b)
termination_by ps => psize ps
decreasing_by
  all_goals simp only [vsize, lsize, psize]
  all_goals omega

end

/-- Model of `to_json` from `src/databricks_mcp/utils.py`:
`json.dumps(serialize(obj), indent=2, default=str)`, as an
`Option String` so that encoder failure would be observable. The
`default=str` hook never fails, which claim C8 makes precise. -/
def to_jsonOpt (obj : Val) : Option String :=
  dumpsWith (fun x => some (strRepr x)) (serialize obj)

/-- `to_json` as the total string function the source exposes. -/
def to_json (obj : Val) : String :=
  (to_jsonOpt obj).getD ""

/-- Python `value.split(",")` on the character list: splits at every
comma, so the empty input yields one empty chunk and a trailing comma
yields a trailing empty chunk. -/
def splitCommas : List Char → List (List Char)
  | [] => [[]]
  | c :: cs =>
      if c = ',' then [] :: splitCommas cs
      else
        match splitCommas cs with
        | [] => [[c]]
        | w :: ws => (c :: w) :: ws

/-- Python `s.strip()`: drop leading and trailing whitespace. -/
def stripChars (cs : List Char) : List Char :=
  ((cs.dropWhile Char.isWhitespace).reverse.dropWhile Char.isWhitespace).reverse

/-- Comma-separated parsing used by `get_tool_filter` in
`src/databricks_mcp/config.py`:
`{s.strip() for s in value.split(",") if s.strip()}` — split on commas,
strip whitespace, discard entries that strip to empty. Membership is all
the code ever asks of the resulting set, so it is modelled as the list
of parsed entries (split and strip implemented on the character list). -/
def parseCsv (s : String) : List String :=
  (((splitCommas s.toList).map (fun w => String.mk (stripChars w))).filter
    (fun t => t != ""))

/-- The per-source half of `get_tool_filter`:
`{s.strip() for s in value.split(",") if s.strip()} if value else None`.
The guard is the raw string's truthiness, so only an unset variable or
the empty string maps to `None`. -/
def parseSource : Option String → Option (List String)
  | some s => if s = "" then none else some (parseCsv s)
  | none => none

/-- Python truthiness of an optional set: `None` and the empty set are
falsy. -/
def optTruthy : Option (List String) → Bool
  | none => false
  | some l => !l.isEmpty

/-- Model of `get_tool_filter` from `src/databricks_mcp/config.py`. The
process environment is passed explicitly: `includeSrc` and `excludeSrc`
are `os.environ.get` of the two variables (`none` = unset). The
both-set tie-break tests Python truthiness of the parsed sets
(`if include_set and exclude_set`). -/
def get_tool_filter (includeSrc excludeSrc : Option String) :
    Option (List String) × Option (List String) :=
  let include_set := parseSource includeSrc
  let exclude_set := parseSource excludeSrc
  if optTruthy include_set && optTruthy exclude_set then (include_set, none)
  else (include_set, exclude_set)

/-- Model of `is_module_enabled` from `src/databricks_mcp/config.py`. -/
def is_module_enabled (includeSrc excludeSrc : Option String) (module_name : String) : Bool :=
  match get_tool_filter includeSrc excludeSrc with
  | (some include_set, _) => decide (module_name ∈ include_set)
  | (none, some exclude_set) => decide (module_name ∉ exclude_set)
  | (none, none) => true

/-- Model of `databricks_create_alert` from
`src/databricks_mcp/tools/sql.py`. The upstream client's
`w.alerts.create` is a parameter returning either a result value or a
raised exception; the source calls it with `name` and `query_id` only —
the `condition` parameter appears nowhere in the body — and wraps the
call in the uniform try/except boundary. -/
def databricks_create_alert (alertsCreate : String → String → Except Failure Val)
    (name query_id condition : String) : String :=
  match alertsCreate name query_id with
  | .ok result => to_json result
  | .error e => format_error e

/-- The argument tuple `databricks_create_alert` passes to the upstream
`w.alerts.create` call, read off the call site
`w.alerts.create(name=name, query_id=query_id)`. -/
def createAlertUpstreamArgs (name query_id condition : String) : String × String :=
  (name, query_id)


/-! ## Helper predicates and lemmas -/

/-- Keys of a normalized mapping (empty for non-mappings). -/
def dictKeys : Val → List String
  | .dict es => es.map Prod.fst
  | _ => []

/-- The JSON-terminal primitives: `None`, booleans, numbers, strings. -/
def isPrim : Val → Bool
  | .none_ => true
  | .bool _ => true
  | .int _ => true
  | .str _ => true
  | _ => false

mutual

/-- Every enum-like value in the tree carries a primitive underlying
value. Python enum members may carry any payload (tuples are common),
and `serialize` returns that payload raw; this predicate marks the
inputs on which that raw return is already normalized. -/
def goodEnums : Val → Bool
  | .dict es => goodEnumsP es
  | .list xs => goodEnumsL xs
  | .tuple xs => goodEnumsL xs
  | .dataclass _ fs => goodEnumsP fs
  | .enumV v => isPrim v
  | .obj attrs => goodEnumsP attrs
  | _ => true

/-- `goodEnums` over a list of values. -/
def goodEnumsL : List Val → Bool
  | [] => true
  | x :: xs => goodEnums x && goodEnumsL xs

/-- `goodEnums` over the values of a key/value list. -/
def goodEnumsP : List (String × Val) → Bool
  | [] => true
  | p :: ps => goodEnums p.2 && goodEnumsP ps

end

mutual

/-- A plain JSON-compatible tree: `None`, primitives, lists of plain
trees, string-keyed mappings of plain trees — the advertised codomain
of the normalizer. -/
def isPlain : Val → Bool
  | .none_ => true
  | .bool _ => true
  | .int _ => true
  | .str _ => true
  | .dict es => isPlainP es
  | .list xs => isPlainL xs
  | _ => false

/-- `isPlain` over a list of values. -/
def isPlainL : List Val → Bool
  | [] => true
  | x :: xs => isPlain x && isPlainL xs

/-- `isPlain` over the values of a key/value list. -/
def isPlainP : List (String × Val) → Bool
  | [] => true
  | p :: ps => isPlain p.2 && isPlainP ps

end

theorem serializeL_eq_map : ∀ xs : List Val, serializeL xs = xs.map serialize := by
  intro xs
  induction xs with
  | nil => simp [serializeL]
  | cons x xs ih => simp [serializeL, ih]

theorem serializeP_eq_map :
    ∀ ps : List (String × Val),
      serializeP ps = ps.map (fun p => (p.1, serialize p.2)) := by
  intro ps
  induction ps with
  | nil => simp [serializeP]
  | cons p ps ih => simp [serializeP, ih]

theorem asdictP_eq_map :
    ∀ ps : List (String × Val),
      asdictP ps = ps.map (fun p => (p.1, asdict p.2)) := by
  intro ps
  induction ps with
  | nil => simp [asdictP]
  | cons p ps ih => simp [asdictP, ih]

theorem isNone_asdict : ∀ v : Val, isNone (asdict v) = isNone v := by
  intro v
  cases v <;> simp [asdict, isNone]

theorem paginateGo_eq_take :
    ∀ (l : List Val) (N i : Nat),
      paginateGo N i l = (l.take (N - i)).map serialize := by
  intro l
  induction l with
  | nil => intro N i; simp [paginateGo]
  | cons x xs ih =>
      intro N i
      by_cases h : N ≤ i
      · have h0 : N - i = 0 := Nat.sub_eq_zero_of_le h
        simp [paginateGo, h, h0]
      · have h2 : N - i = (N - (i + 1)) + 1 := by omega
        simp [paginateGo, h, h2, ih]

mutual

theorem goodEnums_asdict : ∀ v : Val, goodEnums v = true → goodEnums (asdict v) = true
  | .none_, h => h
  | .bool _, h => h
  | .int _, h => h
  | .str _, h => h
  | .dict es, h => by
      simp only [asdict, goodEnums]
      exact goodEnumsP_asdictP es (by simpa [goodEnums] using h)
  | .list xs, h => by
      simp only [asdict, goodEnums]
      exact goodEnumsL_asdictL xs (by simpa [goodEnums] using h)
  | .tuple xs, h => by
      simp only [asdict, goodEnums]
      exact goodEnumsL_asdictL xs (by simpa [goodEnums] using h)
  | .dataclass _ fs, h => by
      simp only [asdict, goodEnums]
      exact goodEnumsP_asdictP fs (by simpa [goodEnums] using h)
  | .enumV _, h => h
  | .obj _, h => h
  | .other _, h => h

theorem goodEnumsL_asdictL :
    ∀ xs : List Val, goodEnumsL xs = true → goodEnumsL (asdictL xs) = true
  | [], h => h
  | x :: xs, h => by
      simp only [asdictL, goodEnumsL, Bool.and_eq_true] at h ⊢
      exact ⟨goodEnums_asdict x h.1, goodEnumsL_asdictL xs h.2⟩

theorem goodEnumsP_asdictP :
    ∀ ps : List (String × Val), goodEnumsP ps = true → goodEnumsP (asdictP ps) = true
  | [], h => h
  | p :: ps, h => by
      simp only [asdictP, goodEnumsP, Bool.and_eq_true] at h ⊢
      exact ⟨goodEnums_asdict p.2 h.1, goodEnumsP_asdictP ps h.2⟩

end

theorem goodEnumsP_filter (q : String × Val → Bool) :
    ∀ ps : List (String × Val), goodEnumsP ps = true → goodEnumsP (ps.filter q) = true := by
  intro ps
  induction ps with
  | nil => intro h; exact h
  | cons p ps ih =>
      intro h
      simp only [goodEnumsP, Bool.and_eq_true] at h
      by_cases hq : q p = true
      · simp only [List.filter_cons, hq, if_pos, goodEnumsP, Bool.and_eq_true]
        exact ⟨h.1, ih h.2⟩
      · simp only [List.filter_cons, hq, Bool.false_eq_true, if_false]
        exact ih h.2

mutual

theorem isPlain_serialize : ∀ v : Val, goodEnums v = true → isPlain (serialize v) = true
  | .none_, _ => by simp [serialize, isPlain]
  | .bool _, _ => by simp [serialize, isPlain]
  | .int _, _ => by simp [serialize, isPlain]
  | .str _, _ => by simp [serialize, isPlain]
  | .dict es, h => by
      simp only [serialize, isPlain]
      exact isPlainP_serializeP es (by simpa [goodEnums] using h)
  | .list xs, h => by
      simp only [serialize, isPlain]
      exact isPlainL_serializeL xs (by simpa [goodEnums] using h)
  | .tuple xs, h => by
      simp only [serialize, isPlain]
      exact isPlainL_serializeL xs (by simpa [goodEnums] using h)
  | .dataclass _ fs, h => by
      simp only [serialize, isPlain]
      exact isPlainP_serializeP _
        (goodEnumsP_filter _ _ (goodEnumsP_asdictP fs (by simpa [goodEnums] using h)))
  | .enumV v, h => by
      have h' : isPrim v = true := by simpa [goodEnums] using h
      cases v <;> simp_all [serialize, isPlain, isPrim]
  | .obj attrs, h => by
      simp only [serialize, isPlain]
      exact isPlainP_serializeP _
        (goodEnumsP_filter _ _ (by simpa [goodEnums] using h))
  | .other _, _ => by simp [serialize, isPlain]
termination_by v => vsize v
decreasing_by
  all_goals simp only [vsize, lsize, psize]
  all_goals first
    | omega
    | exact Nat.lt_of_le_of_lt
        (Nat.le_trans (psize_filter_le _ _) (psize_asdictP _))
        (Nat.lt_add_of_pos_left Nat.one_pos)
    | exact Nat.lt_of_le_of_lt (psize_filter_le _ _)
        (Nat.lt_add_of_pos_left Nat.one_pos)

theorem isPlainL_serializeL :
    ∀ xs : List Val, goodEnumsL xs = true → isPlainL (serializeL xs) = true
  | [], _ => by simp [serializeL, isPlainL]
  | x :: xs, h => by
      simp only [goodEnumsL, Bool.and_eq_true] at h
      simp only [serializeL, isPlainL, Bool.and_eq_true]
      exact ⟨isPlain_serialize x h.1, isPlainL_serializeL xs h.2⟩
termination_by xs => lsize xs
decreasing_by
  all_goals simp only [vsize, lsize, psize]
  all_goals omega

theorem isPlainP_serializeP :
    ∀ ps : List (String × Val), goodEnumsP ps = true → isPlainP (serializeP ps) = true
  | [], _ => by simp [serializeP, isPlainP]
  | p :: ps, h => by
      simp only [goodEnumsP, Bool.and_eq_true] at h
      simp only [serializeP, isPlainP, Bool.and_eq_true]
      exact ⟨isPlain_serialize p.2 h.1, isPlainP_serializeP ps h.2⟩
termination_by ps => psize ps
decreasing_by
  all_goals simp only [vsize, lsize, psize]
  all_goals omega

end

mutual

theorem serialize_eq_of_isPlain : ∀ v : Val, isPlain v = true → serialize v = v
  | .none_, _ => by simp [serialize]
  | .bool _, _ => by simp [serialize]
  | .int _, _ => by simp [serialize]
  | .str _, _ => by simp [serialize]
  | .dict es, h => by
      simp only [serialize, Val.dict.injEq]
      exact serializeP_eq_of_isPlainP es (by simpa [isPlain] using h)
  | .list xs, h => by
      simp only [serialize, Val.list.injEq]
      exact serializeL_eq_of_isPlainL xs (by simpa [isPlain] using h)
  | .tuple _, h => by simp [isPlain] at h
  | .dataclass _ _, h => by simp [isPlain] at h
  | .enumV _, h => by simp [isPlain] at h
  | .obj _, h => by simp [isPlain] at h
  | .other _, h => by simp [isPlain] at h
termination_by v => vsize v
decreasing_by
  all_goals simp only [vsize, lsize, psize]
  all_goals omega

theorem serializeL_eq_of_isPlainL :
    ∀ xs : List Val, isPlainL xs = true → serializeL xs = xs
  | [], _ => by simp [serializeL]
  | x :: xs, h => by
      simp only [isPlainL, Bool.and_eq_true] at h
      simp only [serializeL]
      rw [serialize_eq_of_isPlain x h.1, serializeL_eq_of_isPlainL xs h.2]
termination_by xs => lsize xs
decreasing_by
  all_goals simp only [vsize, lsize, psize]
  all_goals omega

theorem serializeP_eq_of_isPlainP :
    ∀ ps : List (String × Val), isPlainP ps = true → serializeP ps = ps
  | [], _ => by simp [serializeP]
  | p :: ps, h => by
      simp only [isPlainP, Bool.and_eq_true] at h
      simp only [serializeP]
      rw [serialize_eq_of_isPlain p.2 h.1, serializeP_eq_of_isPlainP ps h.2]
termination_by ps => psize ps
decreasing_by
  all_goals simp only [vsize, lsize, psize]
  all_goals omega

end

mutual

theorem dumpsWith_total (dflt : Val → Option String)
    (hd : ∀ w : Val, (dflt w).isSome = true) :
    ∀ v : Val, (dumpsWith dflt v).isSome = true
  | .none_ => by simp [dumpsWith]
  | .bool _ => by simp [dumpsWith]
  | .int _ => by simp [dumpsWith]
  | .str _ => by simp [dumpsWith]
  | .dict es => by
      have h := dumpsPWith_total dflt hd es
      cases hw : dumpsPWith dflt es with
      | none => rw [hw] at h; simp at h
      | some s => simp [dumpsWith, hw]
  | .list xs => by
      have h := dumpsLWith_total dflt hd xs
      cases hw : dumpsLWith dflt xs with
      | none => rw [hw] at h; simp at h
      | some s => simp [dumpsWith, hw]
  | .tuple xs => by
      have h := dumpsLWith_total dflt hd xs
      cases hw : dumpsLWith dflt xs with
      | none => rw [hw] at h; simp at h
      | some s => simp [dumpsWith, hw]
  | .dataclass n fs => by
      have h := hd (.dataclass n fs)
      cases hw : dflt (.dataclass n fs) with
      | none => rw [hw] at h; simp at h
      | some s => simp [dumpsWith, hw]
  | .enumV v => by
      have h := hd (.enumV v)
      cases hw : dflt (.enumV v) with
      | none => rw [hw] at h; simp at h
      | some s => simp [dumpsWith, hw]
  | .obj attrs => by
      have h := hd (.obj attrs)
      cases hw : dflt (.obj attrs) with
      | none => rw [hw] at h; simp at h
      | some s => simp [dumpsWith, hw]
  | .other s => by
      have h := hd (.other s)
      cases hw : dflt (.other s) with
      | none => rw [hw] at h; simp at h
      | some t => simp [dumpsWith, hw]
termination_by v => vsize v
decreasing_by
  all_goals simp only [vsize, lsize, psize]
  all_goals omega

theorem dumpsLWith_total (dflt : Val → Option String)
    (hd : ∀ w : Val, (dflt w).isSome = true) :
    ∀ xs : List Val, (dumpsLWith dflt xs).isSome = true
  | [] => by simp [dumpsLWith]
  | x :: xs => by
      have h1 := dumpsWith_total dflt hd x
      have h2 := dumpsLWith_total dflt hd xs
      cases hx : dumpsWith dflt x with
      | none => rw [hx] at h1; simp at h1
      | some a =>
          cases hxs : dumpsLWith dflt xs with
          | none => rw [hxs] at h2; simp at h2
          | some b => simp [dumpsLWith, hx, hxs]
termination_by xs => lsize xs
decreasing_by
  all_goals simp only [vsize, lsize, psize]
  all_goals omega

theorem dumpsPWith_total (dflt : Val → Option String)
    (hd : ∀ w : Val, (dflt w).isSome = true) :
    ∀ ps : List (String × Val), (dumpsPWith dflt ps).isSome = true
  | [] => by simp [dumpsPWith]
  | p :: ps => by
      have h1 := dumpsWith_total dflt hd p.2
      have h2 := dumpsPWith_total dflt hd ps
      cases hx : dumpsWith dflt p.2 with
      | none => rw [hx] at h1; simp at h1
      | some a =>
          cases hps : dumpsPWith dflt ps with
          | none => rw [hps] at h2; simp at h2
          | some b => simp [dumpsPWith, hx, hps]
termination_by ps => psize ps
decreasing_by
  all_goals simp only [vsize, lsize, psize]
  all_goals omega

end

theorem keys_serializeP :
    ∀ ps : List (String × Val), (serializeP ps).map Prod.fst = ps.map Prod.fst := by
  intro ps
  induction ps with
  | nil => simp [serializeP]
  | cons p ps ih => simp [serializeP, ih]

theorem keys_filter_asdictP :
    ∀ fs : List (String × Val),
      ((asdictP fs).filter (fun p => !(isNone p.2))).map Prod.fst =
        (fs.filter (fun p => !(isNone p.2))).map Prod.fst := by
  intro fs
  induction fs with
  | nil => simp [asdictP]
  | cons p ps ih =>
      by_cases h : isNone p.2 = true
      · simp [asdictP, List.filter_cons, isNone_asdict, h, ih]
      · simp [asdictP, List.filter_cons, isNone_asdict, h, ih]

/-! ## Claims -/

/-- C1: for every pair of environment sources and every group name,
`is_module_enabled` is a three-way case split on the decision returned
by `get_tool_filter`: with an allow set present it is membership in the
allow set, otherwise with a deny set present it is non-membership in the
deny set, otherwise it is `true`; and with both sources set to "a",
`is_enabled "a"` is `true` while `is_enabled "b"` is `false`. -/
theorem is_enabled_three_way_split :
    ∀ (incSrc excSrc : Option String) (name : String),
      (is_module_enabled incSrc excSrc name =
        match get_tool_filter incSrc excSrc with
        | (some allow, _) => decide (name ∈ allow)
        | (none, some deny) => decide (name ∉ deny)
        | (none, none) => true)
      ∧ is_module_enabled (some "a") (some "a") "a" = true
      ∧ is_module_enabled (some "a") (some "a") "b" = false := by
  intro incSrc excSrc name
  refine ⟨rfl, by decide, by decide⟩

/-- C2 counterexample: a whitespace-only allow source is NOT treated as
absent — the raw string " " is truthy in Python, so it parses to a
present empty set, and `is_enabled` then returns `false` for every
group name (here "sql" and "compute"). -/
theorem whitespace_only_source_not_absent :
    (get_tool_filter (some " ") none).1 = some []
    ∧ is_module_enabled (some " ") none "sql" = false
    ∧ is_module_enabled (some " ") none "compute" = false := by
  decide

/-- C2 amended: only a source value equal to the empty string is treated
as absent by `get_tool_filter` (the same decision as with the variable
unset); consequently an empty allow source does not cause `is_enabled`
to return `false` for every group name. A non-empty whitespace-or-commas
source instead parses to a present empty set. -/
theorem empty_string_source_absent :
    ∀ (incSrc excSrc : Option String) (name : String),
      get_tool_filter (some "") excSrc = get_tool_filter none excSrc
      ∧ get_tool_filter incSrc (some "") = get_tool_filter incSrc none
      ∧ is_module_enabled (some "") none name = true := by
  intro incSrc excSrc name
  refine ⟨rfl, ?_, rfl⟩
  cases incSrc <;> rfl

/-- C3 counterexample: with the allow source whitespace-only and the deny
source "a", both sources are present yet the returned pair has BOTH
components non-absent: `(some ∅, some {"a"})` — the deny set is not
discarded because the tie-break tests truthiness of the parsed sets and
the empty allow set is falsy. -/
theorem both_components_non_absent :
    (get_tool_filter (some " ") (some "a")).1 = some []
    ∧ (get_tool_filter (some " ") (some "a")).2 = some ["a"] := by
  decide

/-- C3 amended: at most one component of the pair returned by
`get_tool_filter` is a NONEMPTY set; and whenever both sources parse to
nonempty (truthy) sets, the deny component is absent and the allow set
alone is returned. -/
theorem at_most_one_nonempty_component :
    ∀ incSrc excSrc : Option String,
      (optTruthy (get_tool_filter incSrc excSrc).1
        && optTruthy (get_tool_filter incSrc excSrc).2) = false
      ∧ (optTruthy (parseSource incSrc) = true →
          optTruthy (parseSource excSrc) = true →
          get_tool_filter incSrc excSrc = (parseSource incSrc, none)) := by
  intro incSrc excSrc
  constructor
  · by_cases h : (optTruthy (parseSource incSrc) && optTruthy (parseSource excSrc)) = true
    · have hres : get_tool_filter incSrc excSrc = (parseSource incSrc, none) := by
        simp only [get_tool_filter]
        rw [if_pos h]
      rw [hres]
      simp [optTruthy]
    · have hres : get_tool_filter incSrc excSrc =
          (parseSource incSrc, parseSource excSrc) := by
        simp only [get_tool_filter]
        rw [if_neg h]
      rw [hres]
      exact Bool.eq_false_iff.mpr h
  · intro h1 h2
    have hb : (optTruthy (parseSource incSrc) && optTruthy (parseSource excSrc)) = true := by
      rw [h1, h2]; rfl
    simp only [get_tool_filter]
    rw [if_pos hb]

/-- Witness for the amended C3 at allow="a", deny="b". -/
theorem at_most_one_nonempty_component_witness :
    optTruthy (parseSource (some "a")) = true
    ∧ get_tool_filter (some "a") (some "b") = (parseSource (some "a"), none) :=
  ⟨by decide,
    (at_most_one_nonempty_component (some "a") (some "b")).2 (by decide) (by decide)⟩

/-- C4: `paginate` returns exactly the first `min (length l) N` items in
order, each serialized; `max_items = 0` yields `[]`; the default cap is
100. -/
theorem paginate_spec :
    ∀ (l : List Val) (N : Nat),
      paginate l N = (l.take N).map serialize
      ∧ (paginate l N).length = min l.length N
      ∧ paginate l 0 = []
      ∧ paginate l = paginate l 100 := by
  intro l N
  have h : paginate l N = (l.take N).map serialize := by
    simpa [paginate] using paginateGo_eq_take l N 0
  refine ⟨h, ?_, ?_, rfl⟩
  · rw [h]
    simp [List.length_take, Nat.min_comm]
  · simpa [paginate] using paginateGo_eq_take l 0 0

/-- C5 counterexample: a null-valued field of a record NESTED inside
another record is not excluded. `asdict` flattens the inner record to a
plain mapping (keeping its `None` field) before the outer record's
`is not None` filter runs, so `serialize` keeps the explicit null at
depth 2, contradicting "at any nesting depth". -/
theorem nested_record_null_not_dropped :
    serialize (Val.dataclass "Person"
      [("name", Val.str "Bob"),
       ("address", Val.dataclass "Address"
          [("city", Val.none_), ("zip", Val.int 10001)])]) =
    Val.dict [("name", Val.str "Bob"),
      ("address", Val.dict [("city", Val.none_), ("zip", Val.int 10001)])] := by
  simp [serialize, serializeP, asdictP, asdict, isNone]

/-- C5 amended: null-valued fields are excluded only at the top level of
each record the normalizer directly encounters: the keys of
`normalize(record)` are exactly the names of the record's non-null
fields, in order. Records nested inside another record are flattened to
plain mappings by the dataclass-to-dict conversion, and their null
fields are preserved. -/
theorem record_nulls_dropped_at_top_level :
    ∀ (name : String) (fields : List (String × Val)),
      dictKeys (serialize (Val.dataclass name fields)) =
        (fields.filter (fun p => !(isNone p.2))).map Prod.fst := by
  intro name fields
  simp only [serialize, dictKeys]
  rw [keys_serializeP, keys_filter_asdictP]

/-- C6: normalizing a mapping preserves its keys exactly, normalizes
each entry's value in place, and keeps entries whose value is literally
null (explicit null container values are never dropped). -/
theorem dict_normalization_preserves_keys_and_nulls :
    ∀ es : List (String × Val),
      serialize (Val.dict es) = Val.dict (es.map (fun p => (p.1, serialize p.2)))
      ∧ dictKeys (serialize (Val.dict es)) = es.map Prod.fst
      ∧ (∀ k : String, (k, Val.none_) ∈ es →
          (k, Val.none_) ∈ es.map (fun p => (p.1, serialize p.2))) := by
  intro es
  refine ⟨by simp [serialize, serializeP_eq_map], ?_, ?_⟩
  · simp [serialize, dictKeys, keys_serializeP]
  · intro k hk
    have h2 := List.mem_map_of_mem (fun p => (p.1, serialize p.2)) hk
    simpa [serialize] using h2

/-- Witness for C6 at the mapping `{"k": None}`. -/
theorem dict_normalization_witness :
    ("k", Val.none_) ∈ ([("k", Val.none_)] : List (String × Val))
    ∧ ("k", Val.none_) ∈ ([("k", Val.none_)] : List (String × Val)).map
        (fun p => (p.1, serialize p.2)) :=
  ⟨by simp,
    (dict_normalization_preserves_keys_and_nulls [("k", Val.none_)]).2.2 "k" (by simp)⟩

/-- C7: `format_error` produces exactly `"K: x"` without a code and
`"K: [C] x"` with code `C`; an empty message yields `"K: "` with the
trailing empty message; as a total Lean function it always returns a
string. -/
theorem format_error_spec :
    ∀ (K x C : String),
      format_error ⟨K, x, none⟩ = K ++ ": " ++ x
      ∧ format_error ⟨K, x, some C⟩ = K ++ ": [" ++ C ++ "] " ++ x
      ∧ format_error ⟨K, "", none⟩ = K ++ ": " := by
  intro K x C
  refine ⟨rfl, rfl, ?_⟩
  simp [format_error]

/-- C8: `to_json` is total — the underlying encoder with the `str`
default returns `some` string on every input (never raises), and a leaf
the encoder cannot natively represent (e.g. a dataclass instance
appearing raw as an enum payload) is encoded as its string
representation instead of failing the whole encoding. -/
theorem to_json_total_with_string_fallback :
    ∀ (v : Val) (name : String) (fs : List (String × Val)),
      to_jsonOpt v = some (to_json v)
      ∧ dumpsWith (fun x => some (strRepr x)) (Val.dataclass name fs) =
          some (jsonQuote (strRepr (Val.dataclass name fs))) := by
  intro v name fs
  constructor
  · have h := dumpsWith_total (fun x => some (strRepr x)) (fun _ => rfl) (serialize v)
    cases hw : dumpsWith (fun x => some (strRepr x)) (serialize v) with
    | none => rw [hw] at h; simp at h
    | some s => simp [to_jsonOpt, to_json, hw]
  · simp [dumpsWith]

/-- C9: the `condition` parameter of `databricks_create_alert` is never
transmitted upstream: for any upstream-client behavior, two invocations
agreeing on `name` and `query_id` but differing in `condition` make the
identical upstream call and return the identical string. -/
theorem create_alert_condition_not_transmitted :
    ∀ (alertsCreate : String → String → Except Failure Val)
      (name query_id c1 c2 : String),
      databricks_create_alert alertsCreate name query_id c1 =
        databricks_create_alert alertsCreate name query_id c2
      ∧ createAlertUpstreamArgs name query_id c1 =
          createAlertUpstreamArgs name query_id c2 := by
  intro a n q c1 c2
  exact ⟨rfl, rfl⟩

/-- C10 counterexample: normalization is NOT idempotent on every input.
An enum-like value whose payload is a tuple (a common Python enum shape)
is returned raw by the enum branch, so the first pass yields a tuple —
not a plain JSON tree — and a second pass turns it into a list. -/
theorem serialize_not_idempotent_on_enum_tuple :
    serialize (serialize (Val.enumV (Val.tuple [Val.int 1]))) ≠
      serialize (Val.enumV (Val.tuple [Val.int 1])) := by
  intro hcontra
  rw [show serialize (Val.enumV (Val.tuple [Val.int 1])) = Val.tuple [Val.int 1] by
        simp [serialize]] at hcontra
  rw [show serialize (Val.tuple [Val.int 1]) = Val.list [Val.int 1] by
        simp [serialize, serializeL]] at hcontra
  exact Val.noConfusion hcontra

/-- C10 amended: normalization is idempotent on every input whose
enum-like values all carry primitive payloads (on such inputs every
output of `serialize` is a plain JSON tree, on which `serialize` is the
identity). -/
theorem serialize_idempotent_of_goodEnums :
    ∀ v : Val, goodEnums v = true → serialize (serialize v) = serialize v :=
  fun v h => serialize_eq_of_isPlain (serialize v) (isPlain_serialize v h)

/-- Witness for the amended C10 at the mapping `{"a": 1}`. -/
theorem serialize_idempotent_witness :
    goodEnums (Val.dict [("a", Val.int 1)]) = true
    ∧ serialize (serialize (Val.dict [("a", Val.int 1)])) =
        serialize (Val.dict [("a", Val.int 1)]) :=
  ⟨by simp [goodEnums, goodEnumsP, isPrim],
    serialize_idempotent_of_goodEnums _ (by simp [goodEnums, goodEnumsP, isPrim])⟩

end DatabricksMcp
